import Mathlib

/-!
Verification of the `packed_tree` crate (files `src/core.rs`, `src/tree.rs`,
`src/exactsize.rs`): a forest of trees stored flattened in one `Vec<NodeData<T>>`
in pre-order, where each node stores its subtree size (`NonZeroUsize`).

The embedding models the backing `Vec` as a committed length `len` plus a map
`slots` from physical indices to optionally-initialized `NodeData` entries
(`none` = uninitialized / already dropped).  Machine integers (`usize`) are
modelled as `Nat` (all index arithmetic in the source is bounded by the vector
capacity, which is at most `isize::MAX`, so no wrapping occurs);
`NonZeroUsize` is modelled as `ℕ+`.  The builder protocol is driven by a
program type `BTree` capturing any complete, well-nested sequence of
`get_tree_builder` / `get_child_builder` / `build_tree` / `build_child` /
`add_child` / `finish` calls (Rust's borrow discipline forces well-nesting,
and a "completed" sequence finishes every builder).
-/

/-- Models `NodeData<T>` from `core.rs`: a value together with the
`NonZeroUsize` number of nodes in the subtree rooted at this node. -/
structure NodeData (T : Type) where
  val : T
  subtree_size : ℕ+
  deriving DecidableEq, Repr

/-- Models the `Vec<NodeData<T>>` inside `PackedForest<T>` from `core.rs`,
including the provisional region: `len` is the committed length of the `Vec`
and `slots j` is the content of physical slot `j` (`none` when uninitialized
or dropped).  Capacity is not tracked here; the capacity/reallocation
discipline of `finish` is modelled separately by `RustVec` below. -/
structure PackedForest (T : Type) where
  len : Nat
  slots : Nat → Option (NodeData T)

/-- Models `PackedForest::new()`: an empty vector, nothing initialized. -/
def emptyForest (T : Type) : PackedForest T :=
  { len := 0, slots := fun _ => none }

/-- Models `std::ptr::write(data.as_mut_ptr().add(i), nd)`: initialize
physical slot `i`. -/
def writeSlot {T : Type} (st : PackedForest T) (i : Nat) (nd : NodeData T) : PackedForest T :=
  { st with slots := fun j => if j = i then some nd else st.slots j }

/-- Read back the committed region of the vector (the entries the `Vec`
considers to be its elements), slot by slot. -/
def readCommitted {T : Type} (st : PackedForest T) : List (Option (NodeData T)) :=
  (List.range st.len).map st.slots

/-- The committed entries of the vector as a plain list (in every reachable
state all committed slots are initialized, which the theorems below prove). -/
def committedList {T : Type} (st : PackedForest T) : List (NodeData T) :=
  (readCommitted st).reduceOption

/-- Models `PackedForest::tot_num_nodes()`, which returns `self.data.len()`. -/
def totNumNodes {T : Type} (st : PackedForest T) : Nat :=
  st.len

/-- A construction program: `node v cs` stands for obtaining a builder,
running the child programs `cs` on it in order, and calling `finish v`.
`add_child v` is `node v []`; `build_child v cb` is `node v cs` where `cs`
are the children the callback `cb` builds. -/
inductive BTree (T : Type) : Type where
  | node : T → List (BTree T) → BTree T

/-- The value `finish` is called with for the root of the program. -/
def rootVal {T : Type} : BTree T → T
  | .node v _ => v

/-- The child programs run on this node's builder. -/
def childrenOf {T : Type} : BTree T → List (BTree T)
  | .node _ cs => cs

mutual
/-- Number of nodes a tree program creates (the final `running_size` of its
builder): itself plus all descendants. -/
def sizeT {T : Type} : BTree T → ℕ+
  | .node _ cs => ⟨sizeF cs + 1, Nat.succ_pos _⟩

/-- Number of nodes a list of tree programs creates. -/
def sizeF {T : Type} : List (BTree T) → Nat
  | [] => 0
  | c :: cs => (sizeT c : ℕ) + sizeF cs
end

mutual
/-- Pre-order flattening of one tree: the node followed by the flattenings of
its children, each entry carrying its subtree size. -/
def flattenT {T : Type} : BTree T → List (NodeData T)
  | .node v cs => ⟨v, sizeT (.node v cs)⟩ :: flattenF cs

/-- Pre-order flattening of a forest: the trees' flattenings back to back. -/
def flattenF {T : Type} : List (BTree T) → List (NodeData T)
  | [] => []
  | c :: cs => flattenT c ++ flattenF cs
end

mutual
/-- All subtrees of a tree, listed in pre-order (the tree itself first). -/
def subtreesT {T : Type} : BTree T → List (BTree T)
  | .node v cs => .node v cs :: subtreesF cs

/-- All subtrees of all trees of a forest, in pre-order. -/
def subtreesF {T : Type} : List (BTree T) → List (BTree T)
  | [] => []
  | c :: cs => subtreesT c ++ subtreesF cs
end

mutual
/-- Textbook recursive pre-order walk of a tree: the node's value, then the
walks of the children in order. -/
def preValsT {T : Type} : BTree T → List T
  | .node v cs => v :: preValsF cs

/-- Textbook pre-order walk of a forest. -/
def preValsF {T : Type} : List (BTree T) → List T
  | [] => []
  | c :: cs => preValsT c ++ preValsF cs
end

/-- Overwrite the slot map `f` with the entries of `l` placed consecutively
starting at index `i`.  This is the cumulative effect of the `ptr::write`
calls performed while a subtree is built. -/
def overlay {T : Type} (f : Nat → Option (NodeData T)) (i : Nat) (l : List (NodeData T)) :
    Nat → Option (NodeData T) :=
  fun j => if i ≤ j ∧ j - i < l.length then l[j - i]? else f j

/-- Models `NodeBuilder::finish(val)` from `core.rs` (lines 519-621), after
the capacity check (which never moves initialized data; see `RustVec` for the
growth discipline itself).  The builder has reserved position `i` and running
size `s`; `parent` is the parent builder's current `subtree_size` when a
parent link exists (`parent_subtree_size: Option<&mut NonZeroUsize>`).
It writes `NodeData { val, subtree_size: s }` at `i`, then either adds `s`
into the parent's size (committed `len` untouched) or, for a root, sets the
vector length to `i + s`.  Returns the new state and the parent's updated
size. -/
def finishStep {T : Type} (st : PackedForest T) (i : Nat) (s : ℕ+) (parent : Option ℕ+)
    (v : T) : PackedForest T × Option ℕ+ :=
  let st1 := writeSlot st i ⟨v, s⟩
  match parent with
  | some ps => (st1, some (ps + s))
  | none => ({ st1 with len := i + (s : ℕ) }, none)

mutual
/-- Runs the tree program `t` on a child builder reserved at position `i`
(obtained from `get_child_builder`, so with initial `subtree_size` 1):
builds all children, then performs the write of `finish` (the parent-link
update is done by the caller, `buildChildren`).  Returns the new state and
this node's final `running_size`. -/
def buildSubtree {T : Type} (st : PackedForest T) (i : Nat) : BTree T → PackedForest T × ℕ+
  | .node v cs =>
    let r := buildChildren st i 1 cs
    (writeSlot r.1 i ⟨v, r.2⟩, r.2)

/-- Runs child programs `cs` on the builder at position `i` whose current
`running_size` is `s`.  Each child builder is reserved at `i + s`
(`get_child_builder`: `index: self.index + self.subtree_size`), and its
`finish` adds its final size into `s`. -/
def buildChildren {T : Type} (st : PackedForest T) (i : Nat) (s : ℕ+) :
    List (BTree T) → PackedForest T × ℕ+
  | [] => (st, s)
  | c :: cs =>
    let r := buildSubtree st (i + (s : ℕ)) c
    buildChildren r.1 i (s + r.2) cs
end

/-- Models `PackedForest::build_tree` (equivalently `get_tree_builder`
followed by a completed callback and `finish`): the root builder is reserved
at `index = data.len()`, and the root `finish` advances the committed length
by the final running size. -/
def buildTree {T : Type} (st : PackedForest T) (t : BTree T) : PackedForest T :=
  let r := buildSubtree st st.len t
  { len := st.len + (r.2 : ℕ), slots := r.1.slots }

/-- A forest reachable through the public construction API: the result of
building the tree programs `ts` in order into a fresh `PackedForest`. -/
def buildForest {T : Type} (ts : List (BTree T)) : PackedForest T :=
  ts.foldl buildTree (emptyForest T)

/-- Models `Drop for NodeBuilder` (`core.rs` lines 403-425) for a builder at
position `i` with running size `s`: each slot in `[i+1, i+s)` is read out and
dropped.  Returns the state with those slots dead and the list of destroyed
entries, in the order the loop reads them. -/
def nodeBuilderDrop {T : Type} (st : PackedForest T) (i : Nat) (s : ℕ+) :
    PackedForest T × List (NodeData T) :=
  ({ st with slots := fun j => if i + 1 ≤ j ∧ j < i + (s : ℕ) then none else st.slots j },
   ((List.range ((s : ℕ) - 1)).map (fun k => st.slots (i + 1 + k))).reduceOption)

/-- Models `NodeIter::next` (`core.rs` lines 651-661): peek the leading
entry's `subtree_size`, split the slice there; the first part is the yielded
`NodeRef`'s slice, the second is the retained remainder. -/
def nodeIterNext {T : Type} (l : List (NodeData T)) :
    Option (List (NodeData T) × List (NodeData T)) :=
  match l with
  | [] => none
  | nd :: _ => some (l.take (nd.subtree_size : ℕ), l.drop (nd.subtree_size : ℕ))

/-- Models `NodeIterMut::next` (`core.rs` lines 712-725), which performs the
same split as `NodeIter::next` on an exclusively borrowed slice. -/
def nodeIterMutNext {T : Type} (l : List (NodeData T)) :
    Option (List (NodeData T) × List (NodeData T)) :=
  match l with
  | [] => none
  | nd :: _ => some (l.take (nd.subtree_size : ℕ), l.drop (nd.subtree_size : ℕ))

/-- Models `NodeListDrain::next` (`core.rs` lines 855-884): split off the
leading subtree's entries, move the first value out, and hand back the
children's slice as a nested drain together with the retained remainder. -/
def nodeListDrainNext {T : Type} (l : List (NodeData T)) :
    Option (T × List (NodeData T) × List (NodeData T)) :=
  match l with
  | [] => none
  | nd :: t =>
    some (nd.val, t.take ((nd.subtree_size : ℕ) - 1), l.drop (nd.subtree_size : ℕ))

/-- Models `NodeRef::children`: the `NodeRef`'s slice with its first element
(the node itself) removed. -/
def nodeRefChildren {T : Type} (slice : List (NodeData T)) : List (NodeData T) :=
  slice.drop 1

/-- Models `NodeRef::val`: the value at the first position of the slice. -/
def nodeRefVal {T : Type} (slice : List (NodeData T)) : Option T :=
  slice.head?.map NodeData.val

/-- Models `PackedForest::iter_trees`: a `NodeIter` whose `remaining_nodes`
slice is the whole committed data. -/
def iterTrees {T : Type} (f : PackedForest T) : List (NodeData T) :=
  committedList f

/-- Models `PackedForest::iter_flattened`: the committed values in array
order. -/
def iterFlattened {T : Type} (f : PackedForest T) : List T :=
  (committedList f).map NodeData.val

/-- The full recursive traversal of a sibling run: repeatedly take the next
`NodeRef` from the `NodeIter`, emit its value, recurse into its `children()`
iterator, and continue with the remainder (see `visitOrder_via_next`). -/
def visitOrder {T : Type} : List (NodeData T) → List T
  | [] => []
  | nd :: rest =>
    nd.val :: (visitOrder (rest.take ((nd.subtree_size : ℕ) - 1)) ++
      visitOrder (rest.drop ((nd.subtree_size : ℕ) - 1)))
termination_by l => l.length
decreasing_by
  · simp only [List.length_cons, List.length_take]
    omega
  · simp only [List.length_cons, List.length_drop]
    omega

/-- Number of items a `NodeIter` over this slice yields before returning
`None` (each step discards the leading subtree's entries). -/
def iterLen {T : Type} : List (NodeData T) → Nat
  | [] => 0
  | nd :: rest => 1 + iterLen (rest.drop ((nd.subtree_size : ℕ) - 1))
termination_by l => l.length
decreasing_by
  simp only [List.length_cons, List.length_drop]
  omega

/-- Models `PackedTree<T>` from `tree.rs`: a `PackedForest` wrapped after the
root-count check. -/
structure PackedTree (T : Type) where
  forest : PackedForest T

/-- Models `PackedTree::try_from_forest` (`tree.rs` lines 61-76): take an
iterator over the trees; succeed exactly when the first `next()` yields a
tree and the second yields `None`. -/
def tryFromForest {T : Type} (f : PackedForest T) : Option (PackedTree T) :=
  match nodeIterNext (iterTrees f) with
  | none => none
  | some (_, rest) =>
    match nodeIterNext rest with
    | none => some ⟨f⟩
    | some _ => none

/-- Models the `TryFrom<PackedForest<T>> for PackedTree<T>` impl (`tree.rs`
lines 173-182): `Ok` on success, `Err(())` otherwise — a recoverable result,
never a panic. -/
def tryFromForestE {T : Type} (f : PackedForest T) : Except Unit (PackedTree T) :=
  match tryFromForest f with
  | some tr => .ok tr
  | none => .error ()

/-- Models `PackedTree::root`: `self.forest.iter_trees().next()` (the source
then calls `.unwrap()`; `none` here corresponds to the panic case). -/
def rootOf {T : Type} (tr : PackedTree T) : Option (List (NodeData T)) :=
  (nodeIterNext (iterTrees tr.forest)).map Prod.fst

/-- Models `PackedTree::new(root_val, cb)`: build exactly one tree into a
fresh forest.  The program `t` carries the root value and the children the
callback builds. -/
def PackedTree.new {T : Type} (t : BTree T) : PackedTree T :=
  ⟨buildTree (emptyForest T) t⟩

/-- Models `PackedTree::new_by_ret_val(cb)`: identical to `new` except that
the root value is the callback's return value; the resulting forest is the
same one tree. -/
def PackedTree.newByRetVal {T : Type} (t : BTree T) : PackedTree T :=
  ⟨buildTree (emptyForest T) t⟩

/-- State of a (possibly nested) family of active `NodeListDrain`s obtained
from `drain_trees`: the values already moved out to the caller, and the
`remaining_nodes` slice of every live drain (parent drains and the nested
children drains handed out by `next`). -/
structure DrainState (T : Type) where
  movedOut : List T
  drains : List (List (NodeData T))

/-- Models `PackedForest::drain_trees` (`core.rs` lines 216-244): the
vector's length is set to 0, and a single `NodeListDrain` over the old
contents becomes active. -/
def drainTrees {T : Type} (f : PackedForest T) : PackedForest T × DrainState T :=
  ({ f with len := 0 }, ⟨[], [committedList f]⟩)

/-- One `next()` call on the `i`-th live drain (models `NodeListDrain::next`):
if its slice is non-empty, the leading value is moved out, the drain keeps
the entries after the leading subtree, and the leading subtree's children
slice becomes a new live drain.  Out-of-range `i` or an exhausted drain is a
no-op (`next` returned `None`). -/
def drainStep {T : Type} (st : DrainState T) (i : Nat) : DrainState T :=
  match st.drains[i]? with
  | none => st
  | some [] => st
  | some (nd :: t) =>
    { movedOut := st.movedOut ++ [nd.val],
      drains := (st.drains.set i (t.drop ((nd.subtree_size : ℕ) - 1))) ++
        [t.take ((nd.subtree_size : ℕ) - 1)] }

/-- Run an arbitrary interleaving of `next()` calls, each choosing some live
drain by index. -/
def runDrain {T : Type} (st : DrainState T) (seq : List Nat) : DrainState T :=
  seq.foldl drainStep st

/-- The multiset of values stored in a list of entries. -/
def valsM {T : Type} (l : List (NodeData T)) : Multiset T :=
  (l.map NodeData.val : List T)

/-- The multiset of values still owned by the live drains; `Drop for
NodeListDrain` (`core.rs` lines 842-853) reads out and drops exactly these,
one `ptr::read` per remaining entry. -/
def droppedOnDrop {T : Type} (st : DrainState T) : Multiset T :=
  (st.drains.map valsM).sum

/-- Models a `Vec<NodeData<T>>` at the level needed for the growth discipline
in `finish` (`core.rs` lines 532-553): a reported length, a capacity, and the
physical buffer contents. -/
structure RustVec (T : Type) where
  len : Nat
  cap : Nat
  buf : Nat → Option (NodeData T)

/-- Models `Vec::set_len(n)`: changes only the reported length. -/
def setLen {T : Type} (v : RustVec T) (n : Nat) : RustVec T :=
  { v with len := n }

/-- The guarantee of `Vec::reserve(additional)`: afterwards the capacity
covers `len + additional` and the first `len` elements are preserved — and
nothing more: entries between `len` and `cap` may be lost on reallocation.
Any `v'` satisfying this relation is a legal outcome. -/
def reserveSpec {T : Type} (v : RustVec T) (additional : Nat) (v' : RustVec T) : Prop :=
  v'.len = v.len ∧ v.len + additional ≤ v'.cap ∧ ∀ i, i < v.len → v'.buf i = v.buf i

/-- The state on which `finish` calls `reserve`: the length is temporarily
reported as the full current capacity, so the whole provisional region counts
as present data. -/
def growPre {T : Type} (v : RustVec T) : RustVec T :=
  setLen v v.cap

/-- The state after the growth sequence: whatever `reserve` produced, with
the reported length restored to the true pre-append committed value. -/
def growPost {T : Type} (r : RustVec T) (data_len : Nat) : RustVec T :=
  setLen r data_len

/-- Models `ExactSize<T>` from `exactsize.rs`: a value plus the cached count
of direct children. -/
structure ExactSize (T : Type) where
  val : T
  num_children : Nat
  deriving DecidableEq, Repr

/-- Models `ExactSizePackedForest<T>`: the inner forest over `ExactSize<T>`
values plus the cached `num_trees` counter. -/
structure ExactSizePackedForest (T : Type) where
  forest : PackedForest (ExactSize T)
  num_trees : Nat

mutual
/-- Runs a tree program on an `ExactSizeNodeBuilder` reserved at `i`
(`exactsize.rs` lines 355-393).  The builder's `num_children` field starts at
0; `finish` stores `ExactSize { val, num_children: self.num_children }`.
Mirroring the source, `get_child_builder` leaves the parent's `num_children`
unchanged (no statement in `exactsize.rs` ever increments it). -/
def esBuildSubtree {T : Type} (st : PackedForest (ExactSize T)) (i : Nat) :
    BTree T → PackedForest (ExactSize T) × ℕ+
  | .node v cs =>
    let r := esBuildChildren st i 1 0 cs
    (writeSlot r.1 i ⟨⟨v, r.2.2⟩, r.2.1⟩, r.2.1)

/-- Runs child programs on an `ExactSizeNodeBuilder` at `i` with running size
`s` and current `num_children` field `nc`.  As in the source, building a
child updates `s` (through the inner builder's parent link) but leaves `nc`
as it is. -/
def esBuildChildren {T : Type} (st : PackedForest (ExactSize T)) (i : Nat) (s : ℕ+)
    (nc : Nat) : List (BTree T) → PackedForest (ExactSize T) × ℕ+ × Nat
  | [] => (st, s, nc)
  | c :: cs =>
    let r := esBuildSubtree st (i + (s : ℕ)) c
    esBuildChildren r.1 i (s + r.2) nc cs
end

/-- Models `ExactSizePackedForest::build_tree` (`exactsize.rs` lines 48-57):
`get_tree_builder` then `finish`.  Mirroring the source, `num_trees` is never
modified anywhere in `exactsize.rs` after construction, so it is carried over
unchanged. -/
def esBuildTree {T : Type} (f : ExactSizePackedForest T) (t : BTree T) :
    ExactSizePackedForest T :=
  let r := esBuildSubtree f.forest f.forest.len t
  { forest := { len := f.forest.len + (r.2 : ℕ), slots := r.1.slots },
    num_trees := f.num_trees }

/-- An `ExactSizePackedForest` reachable through the public API: programs
built in order into a fresh forest (`new` sets `num_trees` to 0). -/
def esBuildForest {T : Type} (ts : List (BTree T)) : ExactSizePackedForest T :=
  ts.foldl esBuildTree ⟨emptyForest (ExactSize T), 0⟩

/-- Models `ExactSizePackedForest::iter_trees` (`exactsize.rs` lines 94-99):
the underlying `NodeIter` slice together with the iterator's cached `len`
field, which is `self.num_trees` and is what `len()`/`size_hint()` report. -/
def esIterTrees {T : Type} (f : ExactSizePackedForest T) :
    List (NodeData (ExactSize T)) × Nat :=
  (committedList f.forest, f.num_trees)

/-- Models `ExactSizeNodeRef::children` (`exactsize.rs` lines 468-473): the
children iterator's slice plus its cached `len`, read from the node's stored
`num_children`. -/
def esChildren {T : Type} (slice : List (NodeData (ExactSize T))) :
    List (NodeData (ExactSize T)) × Nat :=
  (nodeRefChildren slice, ((slice.head?.map (fun nd => nd.val.num_children)).getD 0))

/-- A concrete `ExactSizePackedForest`: one tree whose root value is `0` with
a single child of value `1` (built by `build_tree(0, |b| { b.add_child(1); })`). -/
def esExample : ExactSizePackedForest Nat :=
  esBuildForest [BTree.node 0 [BTree.node 1 []]]

/-! ### Basic facts about sizes and flattenings -/

mutual
theorem flattenT_length {T : Type} (t : BTree T) : (flattenT t).length = (sizeT t : ℕ) := by
cases t with
  | node v cs => simp [flattenT, sizeT, flattenF_length cs]

theorem flattenF_length {T : Type} (cs : List (BTree T)) : (flattenF cs).length = sizeF cs := by
cases cs with
  | nil => simp [flattenF, sizeF]
  | cons c cs => simp [flattenF, sizeF, flattenT_length c, flattenF_length cs]
end

mutual
theorem subtreesT_length {T : Type} (t : BTree T) : (subtreesT t).length = (sizeT t : ℕ) := by
cases t with
  | node v cs => simp [subtreesT, sizeT, subtreesF_length cs]

theorem subtreesF_length {T : Type} (cs : List (BTree T)) : (subtreesF cs).length = sizeF cs := by
cases cs with
  | nil => simp [subtreesF, sizeF]
  | cons c cs => simp [subtreesF, sizeF, subtreesT_length c, subtreesF_length cs]
end

theorem sizeF_eq_sum {T : Type} (cs : List (BTree T)) :
    sizeF cs = (cs.map (fun c => (sizeT c : ℕ))).sum := by
  induction cs with
  | nil => simp [sizeF]
  | cons c cs ih => simp [sizeF, ih]

theorem sizeT_eq_one_add {T : Type} (v : T) (cs : List (BTree T)) :
    (sizeT (.node v cs) : ℕ) = 1 + (cs.map (fun c => (sizeT c : ℕ))).sum := by
  simp [sizeT, ← sizeF_eq_sum]
  omega

/-! ### Overlay lemmas -/

theorem overlay_nil {T : Type} (f : Nat → Option (NodeData T)) (i : Nat) :
    overlay f i [] = f := by
  funext j
  simp [overlay]

theorem overlay_cons {T : Type} (f : Nat → Option (NodeData T)) (i : Nat) (a : NodeData T)
    (l : List (NodeData T)) :
    (fun j => if j = i then some a else overlay f (i + 1) l j) = overlay f i (a :: l) := by
  funext j
  by_cases hj : j = i
  · subst hj
    simp [overlay]
  · simp only [overlay, if_neg hj, List.length_cons]
    by_cases h1 : i + 1 ≤ j ∧ j - (i + 1) < l.length
    · rw [if_pos h1, if_pos (by omega : i ≤ j ∧ j - i < l.length + 1)]
      have hd : j - i = (j - (i + 1)) + 1 := by omega
      rw [hd, List.getElem?_cons_succ]
    · rw [if_neg h1, if_neg (by omega : ¬(i ≤ j ∧ j - i < l.length + 1))]

theorem overlay_append {T : Type} (f : Nat → Option (NodeData T)) (i : Nat)
    (l₁ l₂ : List (NodeData T)) :
    overlay (overlay f i l₁) (i + l₁.length) l₂ = overlay f i (l₁ ++ l₂) := by
  funext j
  simp only [overlay, List.length_append]
  by_cases h2 : i + l₁.length ≤ j ∧ j - (i + l₁.length) < l₂.length
  · rw [if_pos h2, if_pos (by omega : i ≤ j ∧ j - i < l₁.length + l₂.length)]
    rw [List.getElem?_append_right (by omega : l₁.length ≤ j - i)]
    congr 1
    omega
  · rw [if_neg h2]
    by_cases h1 : i ≤ j ∧ j - i < l₁.length
    · rw [if_pos h1, if_pos (by omega : i ≤ j ∧ j - i < l₁.length + l₂.length)]
      rw [List.getElem?_append, if_pos h1.2]
    · rw [if_neg h1, if_neg (by omega : ¬(i ≤ j ∧ j - i < l₁.length + l₂.length))]

theorem overlay_read {T : Type} (f : Nat → Option (NodeData T)) (i : Nat)
    (l : List (NodeData T)) (k : Nat) :
    overlay f i l (i + k) = if k < l.length then l[k]? else f (i + k) := by
  by_cases hk : k < l.length
  · rw [if_pos hk, overlay, if_pos (by omega : i ≤ i + k ∧ i + k - i < l.length)]
    congr 1
    omega
  · rw [if_neg hk, overlay, if_neg (by omega : ¬(i ≤ i + k ∧ i + k - i < l.length))]

theorem overlay_out {T : Type} (f : Nat → Option (NodeData T)) (i : Nat)
    (l : List (NodeData T)) (j : Nat) (hj : j < i ∨ i + l.length ≤ j) :
    overlay f i l j = f j := by
  rw [overlay, if_neg (by omega)]

/-! ### The builder protocol writes exactly the pre-order flattening -/

mutual
theorem buildSubtree_eq {T : Type} (st : PackedForest T) (i : Nat) (t : BTree T) :
    buildSubtree st i t = ({ st with slots := overlay st.slots i (flattenT t) }, sizeT t) := by
cases t with
  | node v cs =>
    obtain ⟨h1, h2⟩ := buildChildren_eq st i 1 cs
    have h2' : (buildChildren st i 1 cs).2 = sizeT (BTree.node v cs) := by
      have : ((buildChildren st i 1 cs).2 : ℕ) = (sizeT (BTree.node v cs) : ℕ) := by
        rw [h2]
        simp [sizeT]
        omega
      exact PNat.coe_inj.mp this
    simp only [buildSubtree]
    rw [h1, h2']
    simp only [Prod.mk.injEq, writeSlot, flattenT]
    refine ⟨?_, trivial⟩
    simp only [PNat.one_coe]
    rw [overlay_cons]

theorem buildChildren_eq {T : Type} (st : PackedForest T) (i : Nat) (s : ℕ+)
    (cs : List (BTree T)) :
    (buildChildren st i s cs).1 =
        { st with slots := overlay st.slots (i + (s : ℕ)) (flattenF cs) } ∧
      ((buildChildren st i s cs).2 : ℕ) = (s : ℕ) + sizeF cs := by
cases cs with
  | nil =>
    constructor
    · simp [buildChildren, flattenF, overlay_nil]
    · simp [buildChildren, sizeF]
  | cons c cs =>
    have hsub := buildSubtree_eq st (i + (s : ℕ)) c
    obtain ⟨ih1, ih2⟩ := buildChildren_eq
      ({ st with slots := overlay st.slots (i + (s : ℕ)) (flattenT c) }) i (s + sizeT c) cs
    simp only [buildChildren]
    rw [hsub]
    constructor
    · rw [ih1]
      simp only [flattenF, PNat.add_coe]
      rw [← overlay_append, flattenT_length, Nat.add_assoc]
    · rw [ih2]
      simp only [PNat.add_coe, sizeF]
      omega
end

theorem buildTree_eq {T : Type} (st : PackedForest T) (t : BTree T) :
    buildTree st t =
      { len := st.len + (sizeT t : ℕ), slots := overlay st.slots st.len (flattenT t) } := by
  simp only [buildTree]
  rw [buildSubtree_eq]

theorem foldl_buildTree_eq {T : Type} (ts : List (BTree T)) (st : PackedForest T) :
    ts.foldl buildTree st =
      { len := st.len + sizeF ts, slots := overlay st.slots st.len (flattenF ts) } := by
  induction ts generalizing st with
  | nil =>
    simp only [List.foldl_nil, flattenF, sizeF, overlay_nil, Nat.add_zero]
  | cons t ts ih =>
    simp only [List.foldl_cons]
    rw [buildTree_eq, ih]
    simp only [flattenF, sizeF]
    have hs : st.len + (sizeT t : ℕ) + sizeF ts = st.len + ((sizeT t : ℕ) + sizeF ts) := by
      omega
    rw [← overlay_append, flattenT_length, hs]

theorem buildForest_eq {T : Type} (ts : List (BTree T)) :
    buildForest ts = { len := sizeF ts, slots := overlay (fun _ => none) 0 (flattenF ts) } := by
  rw [buildForest, foldl_buildTree_eq]
  simp [emptyForest]

theorem reduceOption_map_some {T : Type} (l : List (NodeData T)) :
    (l.map some).reduceOption = l := by
  induction l with
  | nil => rfl
  | cons a l ih => simp [List.reduceOption_cons_of_some, ih]

theorem readCommitted_buildForest {T : Type} (ts : List (BTree T)) :
    readCommitted (buildForest ts) = (flattenF ts).map some := by
  rw [buildForest_eq, readCommitted]
  simp only
  apply List.ext_getElem
  · simp [flattenF_length]
  · intro n h1 h2
    simp only [List.getElem_map, List.getElem_range]
    have := overlay_read (fun _ => none : Nat → Option (NodeData T)) 0 (flattenF ts) n
    rw [Nat.zero_add] at this
    rw [this, if_pos (by simpa [flattenF_length] using h1), List.getElem?_eq_getElem]

theorem committedList_buildForest {T : Type} (ts : List (BTree T)) :
    committedList (buildForest ts) = flattenF ts := by
  rw [committedList, readCommitted_buildForest, reduceOption_map_some]

theorem totNumNodes_buildForest {T : Type} (ts : List (BTree T)) :
    totNumNodes (buildForest ts) = sizeF ts := by
  rw [buildForest_eq]
  rfl

/-! ### Positional structure of the flattening -/

theorem flattenT_head {T : Type} (u : BTree T) :
    (flattenT u)[0]? = some ⟨rootVal u, sizeT u⟩ := by
  cases u with
  | node v cs => simp [flattenT, rootVal]

mutual
theorem flattenT_drop {T : Type} (t : BTree T) (p : Nat) (hp : p < (sizeT t : ℕ)) :
    ∃ u, (subtreesT t)[p]? = some u ∧
      ((flattenT t).drop p).take ((sizeT u : ℕ)) = flattenT u := by
cases t with
  | node v cs =>
    cases p with
    | zero =>
      refine ⟨.node v cs, by simp [subtreesT], ?_⟩
      rw [List.drop_zero, List.take_of_length_le (by rw [flattenT_length])]
    | succ q =>
      have hq : q < sizeF cs := by
        have h := hp
        simp only [sizeT, PNat.mk_coe] at h
        omega
      obtain ⟨u, hu1, hu2⟩ := flattenF_drop cs q hq
      refine ⟨u, ?_, ?_⟩
      · simpa [subtreesT] using hu1
      · simpa [flattenT] using hu2

theorem flattenF_drop {T : Type} (cs : List (BTree T)) (p : Nat) (hp : p < sizeF cs) :
    ∃ u, (subtreesF cs)[p]? = some u ∧
      ((flattenF cs).drop p).take ((sizeT u : ℕ)) = flattenT u := by
cases cs with
  | nil => simp [sizeF] at hp
  | cons c cs' =>
    by_cases h : p < (sizeT c : ℕ)
    · obtain ⟨u, hu1, hu2⟩ := flattenT_drop c p h
      have hlen : (sizeT u : ℕ) ≤ ((flattenT c).drop p).length := by
        have hl := congrArg List.length hu2
        simp only [List.length_take, flattenT_length] at hl
        omega
      refine ⟨u, ?_, ?_⟩
      · rw [subtreesF, List.getElem?_append, if_pos (by rw [subtreesT_length]; exact h)]
        exact hu1
      · rw [flattenF, List.drop_append_of_le_length (by rw [flattenT_length]; omega),
          List.take_append_of_le_length hlen]
        exact hu2
    · have hq : p - (sizeT c : ℕ) < sizeF cs' := by
        simp only [sizeF] at hp
        omega
      obtain ⟨u, hu1, hu2⟩ := flattenF_drop cs' (p - (sizeT c : ℕ)) hq
      refine ⟨u, ?_, ?_⟩
      · rw [subtreesF, List.getElem?_append_right (by rw [subtreesT_length]; omega),
          subtreesT_length]
        exact hu1
      · rw [flattenF, List.drop_append_eq_append_drop,
          List.drop_eq_nil_of_le (by rw [flattenT_length]; omega), List.nil_append,
          flattenT_length]
        exact hu2
end

/-- Claim C1: for every forest reachable through the public construction API
(any completed sequence of builder calls, captured by the programs `ts`), the
committed array is exactly the pre-order flattening of the logical forest
(every committed slot initialized), and for every position `p` in it there is
a logical node `u` (the `p`-th node of the forest in pre-order) such that the
entry stored at `p` is `u`'s value with `subtree_size = sizeT u`; the entries
at `[p, p+s)` are the pre-order flattening of `u`'s subtree, so those at
`[p+1, p+s)` are exactly `u`'s pre-order-flattened descendants; and the
stored size `s` equals both `1 +` the sum of the direct children's subtree
sizes and the count of all of `u`'s descendants including itself. -/
theorem subtree_size_invariant {T : Type} (ts : List (BTree T)) (p : Nat)
    (hp : p < totNumNodes (buildForest ts)) :
    readCommitted (buildForest ts) = (flattenF ts).map some ∧
    ∃ u, (subtreesF ts)[p]? = some u ∧
      (committedList (buildForest ts))[p]? = some ⟨rootVal u, sizeT u⟩ ∧
      ((committedList (buildForest ts)).drop p).take ((sizeT u : ℕ)) = flattenT u ∧
      ((committedList (buildForest ts)).drop (p + 1)).take ((sizeT u : ℕ) - 1)
        = flattenF (childrenOf u) ∧
      (sizeT u : ℕ) = 1 + ((childrenOf u).map (fun c => (sizeT c : ℕ))).sum ∧
      (sizeT u : ℕ) = (subtreesT u).length := by
  rw [totNumNodes_buildForest] at hp
  refine ⟨readCommitted_buildForest ts, ?_⟩
  rw [committedList_buildForest]
  obtain ⟨u, hu1, hu2⟩ := flattenF_drop ts p hp
  refine ⟨u, hu1, ?_, hu2, ?_, ?_, (subtreesT_length u).symm⟩
  · have h1 := congrArg List.head? hu2
    rw [List.head?_take, if_neg (by have := (sizeT u).pos; omega)] at h1
    simp only [List.head?_eq_getElem?, List.getElem?_drop, Nat.add_zero] at h1
    rw [h1, flattenT_head]
  · cases u with
    | node v cs =>
      rcases hA : (flattenF ts).drop p with _ | ⟨a, A'⟩
      · rw [hA] at hu2
        exfalso
        have hl := congrArg List.length hu2
        simp only [List.take_nil, List.length_nil, flattenT_length] at hl
        have := (sizeT (BTree.node v cs)).pos
        omega
      · rw [hA] at hu2
        have hk : ((sizeT (BTree.node v cs)) : ℕ) = sizeF cs + 1 := by
          simp [sizeT]
        rw [hk, List.take_succ_cons, flattenT] at hu2
        have h2 := (List.cons.injEq _ _ _ _).mp hu2
        have hdrop : (flattenF ts).drop (p + 1) = A' := by
          have h3 : ((flattenF ts).drop p).drop 1 = (flattenF ts).drop (p + 1) :=
            List.drop_drop 1 p _
          rw [hA] at h3
          simp only [List.drop_one, List.tail_cons] at h3
          exact h3.symm
        rw [hdrop, hk]
        simp only [Nat.add_sub_cancel]
        exact h2.2
  · cases u with
    | node v cs => simpa [childrenOf] using sizeT_eq_one_add v cs

/-- Witness for C1 at a concrete input: the two-tree example forest from the
crate's test suite, at pre-order position 1 (the node with value 10). -/
theorem subtree_size_invariant_witness :
    (1 < totNumNodes (buildForest
        [BTree.node 2 [BTree.node 10 [BTree.node 11 [], BTree.node 12 []], BTree.node 20 []],
         BTree.node 3 [BTree.node 30 []]])) ∧
    (readCommitted (buildForest
        [BTree.node 2 [BTree.node 10 [BTree.node 11 [], BTree.node 12 []], BTree.node 20 []],
         BTree.node 3 [BTree.node 30 []]]) = (flattenF
        [BTree.node 2 [BTree.node 10 [BTree.node 11 [], BTree.node 12 []], BTree.node 20 []],
         BTree.node 3 [BTree.node 30 []]]).map some ∧
    ∃ u, (subtreesF
        [BTree.node 2 [BTree.node 10 [BTree.node 11 [], BTree.node 12 []], BTree.node 20 []],
         BTree.node 3 [BTree.node 30 []]])[1]? = some u ∧
      (committedList (buildForest
        [BTree.node 2 [BTree.node 10 [BTree.node 11 [], BTree.node 12 []], BTree.node 20 []],
         BTree.node 3 [BTree.node 30 []]]))[1]? = some ⟨rootVal u, sizeT u⟩ ∧
      ((committedList (buildForest
        [BTree.node 2 [BTree.node 10 [BTree.node 11 [], BTree.node 12 []], BTree.node 20 []],
         BTree.node 3 [BTree.node 30 []]])).drop 1).take ((sizeT u : ℕ)) = flattenT u ∧
      ((committedList (buildForest
        [BTree.node 2 [BTree.node 10 [BTree.node 11 [], BTree.node 12 []], BTree.node 20 []],
         BTree.node 3 [BTree.node 30 []]])).drop (1 + 1)).take ((sizeT u : ℕ) - 1)
        = flattenF (childrenOf u) ∧
      (sizeT u : ℕ) = 1 + ((childrenOf u).map (fun c => (sizeT c : ℕ))).sum ∧
      (sizeT u : ℕ) = (subtreesT u).length) :=
  ⟨by decide, subtree_size_invariant _ 1 (by decide)⟩

/-! ### Traversal order -/

mutual
theorem flattenT_map_val {T : Type} (t : BTree T) :
    (flattenT t).map NodeData.val = preValsT t := by
cases t with
  | node v cs => simp [flattenT, preValsT, flattenF_map_val cs]

theorem flattenF_map_val {T : Type} (cs : List (BTree T)) :
    (flattenF cs).map NodeData.val = preValsF cs := by
cases cs with
  | nil => simp [flattenF, preValsF]
  | cons c cs => simp [flattenF, preValsF, flattenT_map_val c, flattenF_map_val cs]
end

theorem visitOrder_nil {T : Type} : visitOrder ([] : List (NodeData T)) = [] := by
  rw [visitOrder]

/-- The recursive traversal `visitOrder` is precisely what iterating with
`NodeIter::next` and recursing into `NodeRef::children` produces: take the
next `NodeRef`'s slice, emit its first value, traverse its children slice,
then continue with the iterator's remainder. -/
theorem visitOrder_via_next {T : Type} (l : List (NodeData T)) :
    visitOrder l = (match nodeIterNext l with
      | none => []
      | some (sl, rest) =>
        (sl.map NodeData.val).take 1 ++ (visitOrder (nodeRefChildren sl) ++ visitOrder rest)) := by
  cases l with
  | nil => simp [visitOrder_nil, nodeIterNext]
  | cons nd t =>
    simp only [nodeIterNext, nodeRefChildren]
    rw [visitOrder]
    have hs : (nd.subtree_size : ℕ) = ((nd.subtree_size : ℕ) - 1) + 1 := by
      have := nd.subtree_size.pos
      omega
    rw [hs, List.take_succ_cons, List.drop_succ_cons]
    simp

mutual
theorem visitOrder_flattenT {T : Type} (t : BTree T) (rest : List (NodeData T)) :
    visitOrder (flattenT t ++ rest) = preValsT t ++ visitOrder rest := by
cases t with
  | node v cs =>
    rw [flattenT, List.cons_append, visitOrder]
    have hk : ((sizeT (BTree.node v cs)) : ℕ) - 1 = (flattenF cs).length := by
      simp [sizeT, flattenF_length]
    simp only [hk]
    rw [List.take_left, List.drop_left]
    have hcs := visitOrder_flattenF cs []
    rw [List.append_nil, visitOrder_nil, List.append_nil] at hcs
    rw [hcs, preValsT, List.cons_append]

theorem visitOrder_flattenF {T : Type} (cs : List (BTree T)) (rest : List (NodeData T)) :
    visitOrder (flattenF cs ++ rest) = preValsF cs ++ visitOrder rest := by
cases cs with
  | nil => simp [flattenF, preValsF]
  | cons c cs' =>
    rw [flattenF, preValsF, List.append_assoc, visitOrder_flattenT c (flattenF cs' ++ rest),
      visitOrder_flattenF cs' rest, List.append_assoc]
end

/-- Claim C3: for every committed forest (built by programs `ts`), the
traversal that iterates `iter_trees()` and recursively calls `children()` on
each `NodeRef` visits nodes exactly in the order of the textbook recursive
pre-order walk of the logical trees, and this order coincides with
`iter_flattened()` over the backing array. -/
theorem preorder_consistency {T : Type} (ts : List (BTree T)) :
    visitOrder (iterTrees (buildForest ts)) = preValsF ts ∧
    iterFlattened (buildForest ts) = preValsF ts := by
  constructor
  · rw [iterTrees, committedList_buildForest]
    have h := visitOrder_flattenF ts []
    rw [List.append_nil, visitOrder_nil, List.append_nil] at h
    exact h
  · rw [iterFlattened, committedList_buildForest]
    exact flattenF_map_val ts

/-! ### Iterator termination -/

theorem iterLen_le_aux {T : Type} (n : Nat) :
    ∀ l : List (NodeData T), l.length ≤ n → iterLen l ≤ l.length := by
  induction n with
  | zero =>
    intro l h
    cases l with
    | nil => simp [iterLen]
    | cons nd t => simp at h
  | succ n ih =>
    intro l h
    cases l with
    | nil => simp [iterLen]
    | cons nd t =>
      rw [iterLen]
      have hrec := ih (t.drop ((nd.subtree_size : ℕ) - 1))
        (by simp only [List.length_drop]; simp only [List.length_cons] at h; omega)
      simp only [List.length_drop] at hrec
      simp only [List.length_cons]
      omega

theorem iterLen_le {T : Type} (l : List (NodeData T)) : iterLen l ≤ l.length :=
  iterLen_le_aux l.length l le_rfl

/-- Claim C10: every stored `subtree_size` is nonzero (`ℕ+`), so on a
non-empty slice each of `NodeIter::next`, `NodeIterMut::next` and
`NodeListDrain::next` yields an item and leaves a remaining slice at least
one entry shorter; consequently iterating to exhaustion takes at most the
initial slice length `next()` calls (`iterLen`), and the recursive traversal
through `children()` (`visitOrder`, a total function) terminates. -/
theorem iterator_termination {T : Type} (l : List (NodeData T)) (hl : l ≠ []) :
    (∃ sl rest, nodeIterNext l = some (sl, rest) ∧ rest.length + 1 ≤ l.length) ∧
    (∃ sl rest, nodeIterMutNext l = some (sl, rest) ∧ rest.length + 1 ≤ l.length) ∧
    (∃ v ch rest, nodeListDrainNext l = some (v, ch, rest) ∧ rest.length + 1 ≤ l.length) ∧
    iterLen l ≤ l.length := by
  cases l with
  | nil => simp at hl
  | cons nd t =>
    have hpos := nd.subtree_size.pos
    refine ⟨⟨_, _, rfl, ?_⟩, ⟨_, _, rfl, ?_⟩, ⟨_, _, _, rfl, ?_⟩, iterLen_le _⟩
    all_goals
      simp only [List.length_drop, List.length_cons]
      omega

/-- Witness for C10 at a concrete slice: a single leaf entry. -/
theorem iterator_termination_witness :
    (([⟨0, 1⟩] : List (NodeData Nat)) ≠ []) ∧
    ((∃ sl rest, nodeIterNext ([⟨0, 1⟩] : List (NodeData Nat)) = some (sl, rest) ∧
        rest.length + 1 ≤ ([⟨0, 1⟩] : List (NodeData Nat)).length) ∧
      (∃ sl rest, nodeIterMutNext ([⟨0, 1⟩] : List (NodeData Nat)) = some (sl, rest) ∧
        rest.length + 1 ≤ ([⟨0, 1⟩] : List (NodeData Nat)).length) ∧
      (∃ v ch rest, nodeListDrainNext ([⟨0, 1⟩] : List (NodeData Nat)) = some (v, ch, rest) ∧
        rest.length + 1 ≤ ([⟨0, 1⟩] : List (NodeData Nat)).length) ∧
      iterLen ([⟨0, 1⟩] : List (NodeData Nat)) ≤ ([⟨0, 1⟩] : List (NodeData Nat)).length) :=
  ⟨by decide, iterator_termination _ (by decide)⟩

/-! ### The finish step and the builder drop -/

theorem map_range_overlay {T : Type} (f : Nat → Option (NodeData T)) (i : Nat)
    (l : List (NodeData T)) :
    (List.range l.length).map (fun k => overlay f i l (i + k)) = l.map some := by
  apply List.ext_getElem
  · simp
  · intro n h1 h2
    simp only [List.getElem_map, List.getElem_range]
    rw [overlay_read, if_pos (by simpa using h1), List.getElem?_eq_getElem]

/-- Claim C2: `finish(v)` on a builder at position `i` with running size `s`:
with a parent link it adds `s` to the parent's running size and leaves the
committed length (`tot_num_nodes`) unchanged; without one (a root builder,
whose position is the committed length by builder invariant 2) it advances
the committed length by exactly `s`, publishing the root entry written at `i`
together with the `s - 1` provisional descendant entries in one step (the
slot map is exactly the pre-`set_len` one). -/
theorem finish_spec {T : Type} (st : PackedForest T) (i : Nat) (s : ℕ+) (v : T) :
    (∀ ps : ℕ+, totNumNodes (finishStep st i s (some ps) v).1 = totNumNodes st ∧
      (finishStep st i s (some ps) v).2 = some (ps + s)) ∧
    (i = st.len →
      totNumNodes (finishStep st i s none v).1 = totNumNodes st + (s : ℕ) ∧
      (finishStep st i s none v).1.slots = (writeSlot st i ⟨v, s⟩).slots ∧
      readCommitted (finishStep st i s none v).1 =
        readCommitted st ++
          (List.range (s : ℕ)).map (fun k => (writeSlot st i ⟨v, s⟩).slots (i + k))) := by
  refine ⟨fun ps => ⟨rfl, rfl⟩, fun hroot => ⟨?_, rfl, ?_⟩⟩
  · simp [finishStep, totNumNodes, writeSlot, hroot]
  · subst hroot
    simp only [finishStep, readCommitted, writeSlot]
    rw [List.range_add, List.map_append, List.map_map]
    congr 1
    apply List.map_congr_left
    intro j hj
    have hji : j < st.len := List.mem_range.mp hj
    simp [Nat.ne_of_lt hji]

/-- Witness for C2's root case at a concrete input: finishing a leaf root
builder on an empty forest. -/
theorem finish_spec_witness :
    ((0 : Nat) = (emptyForest Nat).len) ∧
    (totNumNodes (finishStep (emptyForest Nat) 0 1 none 7).1 =
        totNumNodes (emptyForest Nat) + ((1 : ℕ+) : ℕ) ∧
      (finishStep (emptyForest Nat) 0 1 none 7).1.slots =
        (writeSlot (emptyForest Nat) 0 ⟨7, 1⟩).slots ∧
      readCommitted (finishStep (emptyForest Nat) 0 1 none 7).1 =
        readCommitted (emptyForest Nat) ++
          (List.range ((1 : ℕ+) : ℕ)).map
            (fun k => (writeSlot (emptyForest Nat) 0 ⟨7, 1⟩).slots (0 + k))) :=
  ⟨rfl, (finish_spec (emptyForest Nat) 0 1 7).2 rfl⟩

/-- Claim C6: dropping a `NodeBuilder` at position `i` whose callback built
the children `cs` (its `running_size` grew from 1 accordingly) without ever
calling `finish` destroys exactly the already-finished descendant entries in
its provisional range `[i+1, i + running_size)` — which are precisely the
flattening of `cs` — leaves every slot outside that range (in particular any
parent's or sibling's range, which builder invariant 2 makes disjoint)
untouched, adds no node, and leaves the committed region unchanged. -/
theorem builder_drop_spec {T : Type} (st : PackedForest T) (i : Nat) (cs : List (BTree T))
    (h : st.len ≤ i) :
    (nodeBuilderDrop (buildChildren st i 1 cs).1 i (buildChildren st i 1 cs).2).2
        = flattenF cs ∧
    (nodeBuilderDrop (buildChildren st i 1 cs).1 i (buildChildren st i 1 cs).2).1.len
        = st.len ∧
    readCommitted (nodeBuilderDrop (buildChildren st i 1 cs).1 i
        (buildChildren st i 1 cs).2).1 = readCommitted st ∧
    ∀ j, j ≤ i ∨ i + ((buildChildren st i 1 cs).2 : ℕ) ≤ j →
      (nodeBuilderDrop (buildChildren st i 1 cs).1 i
        (buildChildren st i 1 cs).2).1.slots j = st.slots j := by
  obtain ⟨h1, h2⟩ := buildChildren_eq st i 1 cs
  rw [PNat.one_coe] at h2
  have hlen : ((buildChildren st i 1 cs).2 : ℕ) - 1 = (flattenF cs).length := by
    rw [flattenF_length]
    omega
  refine ⟨?_, ?_, ?_, ?_⟩
  · simp only [nodeBuilderDrop, h1, PNat.one_coe, hlen]
    rw [map_range_overlay, reduceOption_map_some]
  · rw [nodeBuilderDrop, h1]
  · simp only [nodeBuilderDrop, readCommitted, h1]
    apply List.map_congr_left
    intro j hj
    have hji : j < st.len := List.mem_range.mp hj
    rw [if_neg (by omega)]
    exact overlay_out _ _ _ _ (by omega)
  · intro j hj
    simp only [nodeBuilderDrop, h1, PNat.one_coe]
    rw [h2] at hj ⊢
    rw [if_neg (by omega)]
    refine overlay_out _ _ _ _ ?_
    rw [flattenF_length]
    omega

/-- Witness for C6 at a concrete input: a forest that already holds one leaf
tree, with a fresh root builder at position 1 that built one child and is
then dropped. -/
theorem builder_drop_spec_witness :
    ((buildForest [BTree.node 5 []] : PackedForest Nat).len ≤ 1) ∧
    ((nodeBuilderDrop (buildChildren (buildForest [BTree.node 5 []]) 1 1
          [BTree.node 7 []]).1 1
          (buildChildren (buildForest [BTree.node 5 []]) 1 1 [BTree.node 7 []]).2).2
        = flattenF [BTree.node 7 []] ∧
      (nodeBuilderDrop (buildChildren (buildForest [BTree.node 5 []]) 1 1
          [BTree.node 7 []]).1 1
          (buildChildren (buildForest [BTree.node 5 []]) 1 1 [BTree.node 7 []]).2).1.len
        = (buildForest [BTree.node 5 []] : PackedForest Nat).len ∧
      readCommitted (nodeBuilderDrop (buildChildren (buildForest [BTree.node 5 []]) 1 1
          [BTree.node 7 []]).1 1
          (buildChildren (buildForest [BTree.node 5 []]) 1 1 [BTree.node 7 []]).2).1
        = readCommitted (buildForest [BTree.node 5 []]) ∧
      ∀ j, j ≤ 1 ∨ 1 + ((buildChildren (buildForest [BTree.node 5 []]) 1 1
          [BTree.node 7 []]).2 : ℕ) ≤ j →
        (nodeBuilderDrop (buildChildren (buildForest [BTree.node 5 []]) 1 1
          [BTree.node 7 []]).1 1
          (buildChildren (buildForest [BTree.node 5 []]) 1 1 [BTree.node 7 []]).2).1.slots j
          = (buildForest [BTree.node 5 []] : PackedForest Nat).slots j) :=
  ⟨by decide, builder_drop_spec (buildForest [BTree.node 5 []]) 1 [BTree.node 7 []]
    (by decide)⟩

/-! ### The growth discipline -/

/-- Claim C7: when `finish` needs more capacity (`needed > cap`), it runs
`set_len(cur_capacity); reserve(needed - data_len); set_len(data_len)`.
Reporting the length as the full current capacity forces `reserve` — which is
only obliged to preserve entries below `len` — to treat the entire
provisional region (all of which lies below `cap`) as present data.  For
every outcome `r` that `reserve` is allowed to produce, the final state has
its reported length restored to the true pre-append value, capacity at least
`needed`, and every buffer entry below the old capacity (hence every
provisional entry) preserved across the reallocation. -/
theorem growth_preserves_provisional {T : Type} (v : RustVec T) (needed : Nat) (r : RustVec T)
    (hlc : v.len ≤ v.cap) (hgrow : v.cap < needed)
    (hres : reserveSpec (growPre v) (needed - v.len) r) :
    (growPre v).len = v.cap ∧
    (growPost r v.len).len = v.len ∧
    needed ≤ (growPost r v.len).cap ∧
    ∀ i, i < v.cap → (growPost r v.len).buf i = v.buf i := by
  obtain ⟨h1, h2, h3⟩ := hres
  refine ⟨rfl, rfl, ?_, ?_⟩
  · simp only [growPre, setLen] at h2
    simp only [growPost, setLen]
    omega
  · intro i hi
    have := h3 i (by simpa [growPre, setLen] using hi)
    simpa [growPre, growPost, setLen] using this

/-- Witness for C7 at a concrete input: a vector of length 1 and capacity 2
holding one committed and one provisional entry, grown to capacity for 3
entries by a `reserve` outcome that reallocates to capacity 5. -/
theorem growth_preserves_provisional_witness :
    ((⟨1, 2, fun j => if j < 2 then some ⟨j, 1⟩ else none⟩ : RustVec Nat).len ≤
        (⟨1, 2, fun j => if j < 2 then some ⟨j, 1⟩ else none⟩ : RustVec Nat).cap) ∧
    ((⟨1, 2, fun j => if j < 2 then some ⟨j, 1⟩ else none⟩ : RustVec Nat).cap < 3) ∧
    reserveSpec (growPre ⟨1, 2, fun j => if j < 2 then some ⟨j, 1⟩ else none⟩) (3 - 1)
      ⟨2, 5, fun j => if j < 2 then some ⟨j, 1⟩ else none⟩ ∧
    ((growPre (⟨1, 2, fun j => if j < 2 then some ⟨j, 1⟩ else none⟩ : RustVec Nat)).len
        = 2 ∧
      (growPost (⟨2, 5, fun j => if j < 2 then some ⟨j, 1⟩ else none⟩ : RustVec Nat) 1).len
        = 1 ∧
      3 ≤ (growPost (⟨2, 5, fun j => if j < 2 then some ⟨j, 1⟩ else none⟩ : RustVec Nat) 1).cap ∧
      ∀ i, i < 2 →
        (growPost (⟨2, 5, fun j => if j < 2 then some ⟨j, 1⟩ else none⟩ : RustVec Nat) 1).buf i
          = (⟨1, 2, fun j => if j < 2 then some ⟨j, 1⟩ else none⟩ : RustVec Nat).buf i) :=
  ⟨by decide, by decide, ⟨rfl, by decide, fun i _ => rfl⟩,
    growth_preserves_provisional _ 3 _ (by decide) (by decide)
      ⟨rfl, by decide, fun i _ => rfl⟩⟩

/-! ### Root-count checking and the PackedTree facade -/

theorem nodeIterNext_flattenF_cons {T : Type} (t : BTree T) (ts : List (BTree T)) :
    nodeIterNext (flattenF (t :: ts)) = some (flattenT t, flattenF ts) := by
  cases t with
  | node v cs =>
    have hk : ((sizeT (BTree.node v cs)) : ℕ) = sizeF cs + 1 := by
      simp [sizeT]
    simp only [flattenF, flattenT, List.cons_append, nodeIterNext, hk]
    rw [List.take_succ_cons, List.drop_succ_cons, ← flattenF_length cs,
      List.take_left, List.drop_left]

theorem iterTrees_buildForest {T : Type} (ts : List (BTree T)) :
    iterTrees (buildForest ts) = flattenF ts := by
  rw [iterTrees, committedList_buildForest]

/-- Claim C8: `PackedTree::try_from_forest` (and the `TryFrom` conversion)
fails — returning `None`/`Err(())`, a value and not a panic — exactly when
the built forest has zero roots or at least two roots, and succeeds on
exactly one root, in which case `root()` exposes that single root's slice
(whose first value is the root's value). -/
theorem try_from_forest_spec {T : Type} (ts : List (BTree T)) :
    (ts = [] → tryFromForest (buildForest ts) = none ∧
      tryFromForestE (buildForest ts) = .error ()) ∧
    (∀ t, ts = [t] → tryFromForest (buildForest ts) = some ⟨buildForest ts⟩ ∧
      tryFromForestE (buildForest ts) = .ok ⟨buildForest ts⟩ ∧
      rootOf ⟨buildForest ts⟩ = some (flattenT t) ∧
      nodeRefVal (flattenT t) = some (rootVal t)) ∧
    (2 ≤ ts.length → tryFromForest (buildForest ts) = none ∧
      tryFromForestE (buildForest ts) = .error ()) ∧
    ((tryFromForest (buildForest ts)).isSome ↔ ts.length = 1) := by
  rcases ts with _ | ⟨t1, _ | ⟨t2, rest⟩⟩
  · refine ⟨fun _ => ⟨?_, ?_⟩, fun t h => by simp at h, fun h => by simp at h, by
      simp [tryFromForest, iterTrees_buildForest, flattenF, nodeIterNext]⟩ <;>
      simp [tryFromForest, tryFromForestE, iterTrees_buildForest, flattenF, nodeIterNext]
  · refine ⟨fun h => by simp at h, fun t ht => ?_, fun h => by simp at h, ?_⟩
    · injection ht with hh _
      subst hh
      have h1 : nodeIterNext (iterTrees (buildForest [t1])) = some (flattenT t1, []) := by
        rw [iterTrees_buildForest, nodeIterNext_flattenF_cons]
        rfl
      refine ⟨?_, ?_, ?_, ?_⟩
      · simp only [tryFromForest, h1]
        simp [nodeIterNext]
      · simp only [tryFromForestE, tryFromForest, h1]
        simp [nodeIterNext]
      · rw [rootOf, h1]
        rfl
      · cases t1 with
        | node v cs => simp [flattenT, nodeRefVal, rootVal]
    · have h1 : nodeIterNext (iterTrees (buildForest [t1])) = some (flattenT t1, []) := by
        rw [iterTrees_buildForest, nodeIterNext_flattenF_cons]
        rfl
      simp only [tryFromForest, h1]
      simp [nodeIterNext]
  · have h1 : nodeIterNext (iterTrees (buildForest (t1 :: t2 :: rest)))
        = some (flattenT t1, flattenF (t2 :: rest)) := by
      rw [iterTrees_buildForest, nodeIterNext_flattenF_cons]
    have h2 : nodeIterNext (flattenF (t2 :: rest)) = some (flattenT t2, flattenF rest) :=
      nodeIterNext_flattenF_cons t2 rest
    refine ⟨fun h => by simp at h, fun t h => by simp at h, fun _ => ⟨?_, ?_⟩, ?_⟩
    · simp only [tryFromForest, h1, h2]
    · simp only [tryFromForestE, tryFromForest, h1, h2]
    · simp only [tryFromForest, h1, h2]
      simp

/-- Witness for C8 at a concrete input: the one-tree forest `[node 5 []]`. -/
theorem try_from_forest_spec_witness :
    (([BTree.node 5 []] : List (BTree Nat)) = [BTree.node 5 []]) ∧
    (tryFromForest (buildForest [BTree.node 5 []]) = some ⟨buildForest [BTree.node 5 []]⟩ ∧
      tryFromForestE (buildForest [BTree.node 5 []]) = .ok ⟨buildForest [BTree.node 5 []]⟩ ∧
      rootOf ⟨buildForest [BTree.node 5 []]⟩ = some (flattenT (BTree.node 5 [])) ∧
      nodeRefVal (flattenT (BTree.node 5 [])) = some (rootVal (BTree.node 5 []))) :=
  ⟨rfl, (try_from_forest_spec [BTree.node 5 []]).2.1 (BTree.node 5 []) rfl⟩

/-- Claim C9: every `PackedTree` obtainable from the public API — `new`,
`new_by_ret_val`, or a successful `try_from_forest` — holds at least one
node: its `root()` / `root_mut()` internal `unwrap` of the first tree always
succeeds (`rootOf` is `some`), and `tot_num_nodes()` is at least 1. -/
theorem packed_tree_root_total {T : Type} (t : BTree T) (f : PackedForest T)
    (tr : PackedTree T) (h : tryFromForest f = some tr) :
    (rootOf (PackedTree.new t)).isSome ∧ 1 ≤ totNumNodes (PackedTree.new t).forest ∧
    (rootOf (PackedTree.newByRetVal t)).isSome ∧
    1 ≤ totNumNodes (PackedTree.newByRetVal t).forest ∧
    (rootOf tr).isSome ∧ 1 ≤ totNumNodes tr.forest := by
  have hnew : ∀ tr' : PackedTree T, tr' = PackedTree.new t →
      (rootOf tr').isSome ∧ 1 ≤ totNumNodes tr'.forest := by
    rintro _ rfl
    constructor
    · have hb : (PackedTree.new t).forest = buildForest [t] := rfl
      rw [rootOf, hb, iterTrees_buildForest, nodeIterNext_flattenF_cons]
      rfl
    · have hb : (PackedTree.new t).forest = buildForest [t] := rfl
      rw [hb, totNumNodes_buildForest]
      have := (sizeT t).pos
      simp only [sizeF]
      omega
  obtain ⟨hn1, hn2⟩ := hnew _ rfl
  have hinv : tr = (⟨f⟩ : PackedTree T) ∧ iterTrees f ≠ [] := by
    unfold tryFromForest at h
    split at h
    · simp at h
    · rename_i heq
      split at h
      · refine ⟨((Option.some.injEq _ _).mp h).symm, fun hnil => ?_⟩
        rw [hnil] at heq
        simp [nodeIterNext] at heq
      · simp at h
  obtain ⟨rfl, hne⟩ := hinv
  refine ⟨hn1, hn2, hn1, hn2, ?_, ?_⟩
  · rcases hl : iterTrees f with _ | ⟨nd, t'⟩
    · exact absurd hl hne
    · simp [rootOf, hl, nodeIterNext]
  · by_contra hlen
    have hzero : f.len = 0 := by
      simp only [totNumNodes] at hlen
      omega
    have hnil : iterTrees f = [] := by
      rw [iterTrees, committedList, readCommitted, hzero]
      rfl
    exact hne hnil

/-- Witness for C9 at a concrete input: a one-node forest held directly, with
its successful conversion. -/
theorem packed_tree_root_total_witness :
    (tryFromForest (⟨1, fun j => if j = 0 then some ⟨3, 1⟩ else none⟩ : PackedForest Nat)
        = some ⟨⟨1, fun j => if j = 0 then some ⟨3, 1⟩ else none⟩⟩) ∧
    ((rootOf (PackedTree.new (BTree.node 4 []))).isSome ∧
      1 ≤ totNumNodes (PackedTree.new (BTree.node 4 [] : BTree Nat)).forest ∧
      (rootOf (PackedTree.newByRetVal (BTree.node 4 []))).isSome ∧
      1 ≤ totNumNodes (PackedTree.newByRetVal (BTree.node 4 [] : BTree Nat)).forest ∧
      (rootOf (⟨⟨1, fun j => if j = 0 then some ⟨3, 1⟩ else none⟩⟩ : PackedTree Nat)).isSome ∧
      1 ≤ totNumNodes
        (⟨⟨1, fun j => if j = 0 then some ⟨3, 1⟩ else none⟩⟩ : PackedTree Nat).forest) :=
  ⟨rfl,
    packed_tree_root_total (BTree.node 4 [])
      (⟨1, fun j => if j = 0 then some ⟨3, 1⟩ else none⟩ : PackedForest Nat)
      (⟨⟨1, fun j => if j = 0 then some ⟨3, 1⟩ else none⟩⟩ : PackedTree Nat) rfl⟩

/-! ### Drain accounting -/

theorem valsM_append {T : Type} (l₁ l₂ : List (NodeData T)) :
    valsM (l₁ ++ l₂) = valsM l₁ + valsM l₂ := by
  simp only [valsM, List.map_append]
  exact (Multiset.coe_add _ _).symm

theorem valsM_cons {T : Type} (nd : NodeData T) (t : List (NodeData T)) :
    valsM (nd :: t) = {nd.val} + valsM t := by
  simp only [valsM, List.map_cons]
  rw [Multiset.singleton_add]
  exact (Multiset.cons_coe _ _).symm

theorem sum_valsM_set {T : Type} (ds : List (List (NodeData T))) (i : Nat)
    (d x : List (NodeData T)) (h : ds[i]? = some x) :
    ((ds.set i d).map valsM).sum + valsM x = (ds.map valsM).sum + valsM d := by
  induction ds generalizing i with
  | nil => simp at h
  | cons a ds ih =>
    cases i with
    | zero =>
      simp only [List.getElem?_cons_zero, Option.some.injEq] at h
      subst h
      simp only [List.set_cons_zero, List.map_cons, List.sum_cons]
      abel
    | succ n =>
      simp only [List.getElem?_cons_succ] at h
      simp only [List.set_cons_succ, List.map_cons, List.sum_cons]
      have h2 := ih n h
      rw [add_assoc, h2, ← add_assoc]

theorem drainStep_invariant {T : Type} (st : DrainState T) (i : Nat) :
    ((drainStep st i).movedOut : Multiset T) + droppedOnDrop (drainStep st i) =
      (st.movedOut : Multiset T) + droppedOnDrop st := by
  rcases hd : st.drains[i]? with _ | (_ | ⟨nd, t⟩)
  · rw [drainStep, hd]
  · rw [drainStep, hd]
  · rw [drainStep, hd]
    simp only [droppedOnDrop, List.map_append, List.sum_append, List.map_cons,
      List.sum_cons, List.map_nil, List.sum_nil, add_zero]
    have ht : valsM (t.take ((nd.subtree_size : ℕ) - 1)) +
        valsM (t.drop ((nd.subtree_size : ℕ) - 1)) = valsM t := by
      rw [← valsM_append, List.take_append_drop]
    have hset := sum_valsM_set st.drains i (t.drop ((nd.subtree_size : ℕ) - 1)) (nd :: t) hd
    have hmv : ((st.movedOut ++ [nd.val] : List T) : Multiset T) =
        (st.movedOut : Multiset T) + {nd.val} := by
      rw [← Multiset.coe_singleton]
      exact (Multiset.coe_add _ _).symm
    rw [hmv]
    have hgoal : {nd.val} + (((st.drains.set i
        (t.drop ((nd.subtree_size : ℕ) - 1))).map valsM).sum +
        valsM (t.take ((nd.subtree_size : ℕ) - 1))) = (st.drains.map valsM).sum := by
      apply add_right_cancel (b := valsM (t.drop ((nd.subtree_size : ℕ) - 1)))
      rw [show (st.drains.map valsM).sum + valsM (t.drop ((nd.subtree_size : ℕ) - 1))
          = ((st.drains.set i (t.drop ((nd.subtree_size : ℕ) - 1))).map valsM).sum
            + valsM (nd :: t) from hset.symm, valsM_cons, ← ht]
      abel
    calc (st.movedOut : Multiset T) + {nd.val} +
        (((st.drains.set i (t.drop ((nd.subtree_size : ℕ) - 1))).map valsM).sum +
          valsM (t.take ((nd.subtree_size : ℕ) - 1)))
        = (st.movedOut : Multiset T) + ({nd.val} +
          (((st.drains.set i (t.drop ((nd.subtree_size : ℕ) - 1))).map valsM).sum +
            valsM (t.take ((nd.subtree_size : ℕ) - 1)))) := by abel
      _ = (st.movedOut : Multiset T) + (st.drains.map valsM).sum := by rw [hgoal]

theorem runDrain_invariant {T : Type} (seq : List Nat) (st : DrainState T) :
    ((runDrain st seq).movedOut : Multiset T) + droppedOnDrop (runDrain st seq) =
      (st.movedOut : Multiset T) + droppedOnDrop st := by
  induction seq generalizing st with
  | nil => rfl
  | cons i seq ih =>
    rw [runDrain, List.foldl_cons]
    have h1 := ih (drainStep st i)
    rw [runDrain] at h1
    rw [h1, drainStep_invariant]

/-- Claim C5: for every built forest, `drain_trees` first sets the committed
length to 0 and hands all entries to a `NodeListDrain`; after any
interleaving `seq` of `next()` calls on the live drains (including the
nested children drains), the multiset of values moved out to the caller plus
the multiset destroyed when the drain family is dropped (`Drop` reads out
each remaining entry exactly once) equals exactly the multiset of values the
forest held — nothing is destroyed twice and nothing is left undestroyed. -/
theorem drain_accounting {T : Type} (ts : List (BTree T)) (seq : List Nat) :
    ((runDrain (drainTrees (buildForest ts)).2 seq).movedOut : Multiset T) +
        droppedOnDrop (runDrain (drainTrees (buildForest ts)).2 seq) =
      valsM (committedList (buildForest ts)) ∧
    totNumNodes (drainTrees (buildForest ts)).1 = 0 := by
  constructor
  · rw [runDrain_invariant]
    simp only [drainTrees, droppedOnDrop, List.map_cons, List.map_nil, List.sum_cons,
      List.sum_nil, add_zero]
    rw [show ((([] : List T)) : Multiset T) = 0 from rfl, zero_add]
  · rfl

/-! ### The exact-size decorator's cached counts -/

/-- Claim C4 fails on the code: `exactsize.rs` never increments `num_trees`
(not in `build_tree`, `get_tree_builder`, or `finish`) nor any builder's
`num_children` (`get_child_builder` leaves the parent's field untouched), so
both cached counts stay 0.  On the forest built by
`build_tree(0, |b| { b.add_child(1); })`: the stored `num_trees` is 0 and
`iter_trees()`'s cached `len()` is 0, yet its `next()` yields exactly one
item (the root's slice, with an empty remainder); the root's stored
`num_children` is 0 and its `children()` iterator's cached `len()` is 0, yet
that iterator's `next()` also yields exactly one item.  This contradicts the
code's own documentation ("keep track of how many direct children they
have") and the `ExactSizeIterator` contract it implements. -/
theorem exactsize_counts_bug :
    esExample.num_trees = 0 ∧
    (esIterTrees esExample).2 = 0 ∧
    nodeIterNext (esIterTrees esExample).1 = some ((esIterTrees esExample).1, []) ∧
    nodeIterNext ([] : List (NodeData (ExactSize Nat))) = none ∧
    (committedList esExample.forest).head?.map (fun nd => nd.val.num_children) = some 0 ∧
    (esChildren (esIterTrees esExample).1).2 = 0 ∧
    nodeIterNext (esChildren (esIterTrees esExample).1).1 =
      some ((esChildren (esIterTrees esExample).1).1, []) :=
  ⟨rfl, rfl, rfl, rfl, rfl, rfl, rfl⟩
